import Mathlib

/-!
Verification of the fingerprint-identity ledger design and of the two
Next.js API route handlers present in the repository.

The ledger subsystem (CryptoVault, HashChain, PersistenceStore,
LedgerService) is distributed as a Python application whose sources are
not part of this tree — only its documentation (README, Makefile,
PROJECT_CONTEXT) is.  Those components are therefore modelled from the
design specification, definition by definition; each such definition
carries a doc comment starting with `Modelled from the spec:`.  The two
API route handlers (`create-m2m-token`, `create-user`) are translated
directly from the TypeScript sources.

Hash functions are kept parametric (the spec names SHA-256); wherever a
property needs the absence of a hash collision, that enters as an
explicit pointwise hypothesis, never as a global axiom.
-/

namespace IdLedger

/-- A byte string, each element intended to be below 256.  The crypto layer
never needs the bound, so plain naturals keep the arithmetic simple. -/
abbrev Bytes := List Nat

/-! ## CryptoVault (modelled from the spec, §4.1) -/

/-- Modelled from the spec: `deriveKey(secret, salt, iterations)` — an
iterated hash-based key derivation over `secret` and a per-encryption
random `salt`, with a caller-configurable iteration count.  The hash
primitive `hashB` is a parameter. -/
def deriveKey (hashB : Bytes → Bytes) (secret salt : Bytes) (iters : Nat) : Bytes :=
  Nat.iterate hashB iters (secret ++ salt)

/-- XOR two byte strings pointwise (truncating to the shorter). -/
def xorBytes (a b : Bytes) : Bytes :=
  List.zipWith HXor.hXor a b

/-- Modelled from the spec: the degraded-mode keystream — the derived key,
repeated, XORed byte-for-byte against the data starting at stream
position `i`. -/
def xorStream (key : Bytes) : Nat → Bytes → Bytes
  | _, [] => []
  | i, b :: rest => (b ^^^ key.getD (i % key.length) 0) :: xorStream key (i + 1) rest

/-- Modelled from the spec: the reversible keyed XOR fallback cipher,
applied byte-for-byte against the plaintext. -/
def xorEncrypt (key data : Bytes) : Bytes :=
  xorStream key 0 data

/-- Modelled from the spec: standard (PKCS#7-style) padding to a multiple
of the 16-byte cipher block size. -/
def pad (bs : Bytes) : Bytes :=
  bs ++ List.replicate (16 - bs.length % 16) (16 - bs.length % 16)

/-- Modelled from the spec: inverse of `pad`; fails on malformed padding. -/
def unpad (bs : Bytes) : Option Bytes :=
  match bs.getLast? with
  | none => none
  | some p =>
    if p = 0 ∨ 16 < p ∨ bs.length < p then none
    else if (bs.drop (bs.length - p)).all (fun x => x = p) then
      some (bs.take (bs.length - p))
    else none

/-- Split a byte string into successive 16-byte blocks. -/
def toBlocks (bs : Bytes) : List Bytes :=
  if h : bs = [] then []
  else bs.take 16 :: toBlocks (bs.drop 16)
termination_by bs.length
decreasing_by
  simp only [List.length_drop]
  have : 0 < bs.length := List.length_pos.mpr h
  omega

/-- Modelled from the spec: cipher-block-chaining encryption of a list of
16-byte blocks under block primitive `E`, chaining value `iv`. -/
def cbcEnc (E : Bytes → Bytes → Bytes) (key : Bytes) : Bytes → List Bytes → List Bytes
  | _, [] => []
  | iv, b :: rest =>
    let c := E key (xorBytes iv b)
    c :: cbcEnc E key c rest

/-- Modelled from the spec: cipher-block-chaining decryption under block
primitive `D`, chaining value `iv`. -/
def cbcDec (D : Bytes → Bytes → Bytes) (key : Bytes) : Bytes → List Bytes → List Bytes
  | _, [] => []
  | iv, c :: rest => xorBytes iv (D key c) :: cbcDec D key c rest

/-- Modelled from the spec: `encrypt` with the randomness (16-byte `salt`
and `iv`) made an explicit argument.  Derives a key, encrypts the
serialized plaintext — under the chained block cipher in the primary
mode, or under the keyed XOR stream in the degraded fallback mode — and
returns the envelope `modeMarker ∷ salt ++ iv ++ ciphertext` (the spec's
leading mode marker byte; base64 transport encoding is elided). -/
def encryptWith (E : Bytes → Bytes → Bytes) (useFallback : Bool) (hashB : Bytes → Bytes)
    (iters : Nat) (salt iv pt secret : Bytes) : Bytes :=
  let key := deriveKey hashB secret salt iters
  if useFallback then
    1 :: (salt ++ (iv ++ xorEncrypt key pt))
  else
    0 :: (salt ++ (iv ++ (cbcEnc E key iv (toBlocks (pad pt))).flatten))

/-- Modelled from the spec: `decrypt` — splits the envelope into mode
marker, `salt`, `iv` and ciphertext, re-derives the key and dispatches on
the mode marker; fails on a malformed envelope. -/
def decryptWith (D : Bytes → Bytes → Bytes) (hashB : Bytes → Bytes)
    (iters : Nat) (envl secret : Bytes) : Option Bytes :=
  match envl with
  | [] => none
  | m :: rest =>
    let salt := rest.take 16
    let rest2 := rest.drop 16
    let iv := rest2.take 16
    let ct := rest2.drop 16
    let key := deriveKey hashB secret salt iters
    if m = 1 then some (xorEncrypt key ct)
    else if m = 0 then unpad (cbcDec D key iv (toBlocks ct)).flatten
    else none

/-! ## HashChain data model (modelled from the spec, §3 and §4.2) -/

/-- Modelled from the spec: the block payload (`LedgerPayload`) — the
derived lookup hash, the ciphertext envelope, the unencrypted
document-type labels, and the record timestamp. -/
structure Payload where
  lookup_hash : String
  encrypted_ids : Bytes
  id_types : List String
  record_timestamp : Nat
deriving DecidableEq, Repr

/-- Modelled from the spec: a ledger block — index, timestamp, payload,
link to the prior block's hash, proof-of-work nonce and own hash. -/
structure Block where
  index : Nat
  timestamp : Nat
  payload : Payload
  previous_hash : String
  nonce : Nat
  hash : String
deriving DecidableEq, Repr

instance : Inhabited Block :=
  ⟨⟨0, 0, ⟨"", [], [], 0⟩, "", 0, ""⟩⟩

/-- The type of the parametric block digest: a hex-string cryptographic
hash over the five block fields (index, timestamp, payload,
previous hash, nonce).  The spec names SHA-256 over the canonical
serialization; it stays parametric here, with collision absence as an
explicit hypothesis wherever a property needs it. -/
abbrev Digest := Nat → Nat → Payload → String → Nat → String

/-- Modelled from the spec: the fixed genesis sentinel value standing in
for a previous hash — a digest of all zero bytes, i.e. 64 hex zeros. -/
def sentinel : String :=
  String.mk (List.replicate 64 '0')

/-- Modelled from the spec: the leading-zero difficulty property — the
hex digest has (at least) `d` leading zero characters. -/
def hasDifficulty (h : String) (d : Nat) : Bool :=
  h.toList.take d = List.replicate d '0'

/-- Modelled from the spec: the mining search loop — starting at nonce
`n`, recompute the digest and increment until the difficulty property
holds.  The source loop is unbounded; the model adds explicit `fuel`
and returns `none` when the search window is exhausted. -/
def mineAux (digest : Digest) (idx ts : Nat) (p : Payload) (prev : String) (d : Nat) :
    Nat → Nat → Option (Nat × String)
  | 0, _ => none
  | fuel + 1, n =>
    let h := digest idx ts p prev n
    if hasDifficulty h d then some (n, h) else mineAux digest idx ts p prev d fuel (n + 1)

/-- Modelled from the spec: `mine(index, timestamp, payload,
previous_hash, difficulty)` — the nonce search starting at 0. -/
def mine (digest : Digest) (idx ts : Nat) (p : Payload) (prev : String) (d fuel : Nat) :
    Option (Nat × String) :=
  mineAux digest idx ts p prev d fuel 0

/-- Modelled from the spec: `appendBlock(payload, difficulty)` — builds a
block with `index = chainLength` and `previous_hash` the last block's
hash (or the genesis sentinel), mines it, and appends it. -/
def appendBlock (digest : Digest) (d fuel : Nat) (chain : List Block) (p : Payload)
    (ts : Nat) : Option (List Block × Block) :=
  let idx := chain.length
  let prev := match chain.getLast? with
    | some b => b.hash
    | none => sentinel
  match mine digest idx ts p prev d fuel with
  | none => none
  | some (n, h) =>
    let b : Block := ⟨idx, ts, p, prev, n, h⟩
    some (chain ++ [b], b)

/-- Modelled from the spec: whether the chain-validity scan reports an
offence at position `i` — recomputed digest differing from the stored
hash, difficulty violated, or (for `i > 0`) a broken link to the prior
block's hash. -/
def offendsAt (digest : Digest) (d : Nat) (chain : List Block) (i : Nat) : Bool :=
  match chain[i]? with
  | none => false
  | some b =>
    decide (b.hash ≠ digest b.index b.timestamp b.payload b.previous_hash b.nonce)
    || !(hasDifficulty b.hash d)
    || (decide (0 < i) &&
        match chain[i - 1]? with
        | some c => decide (b.previous_hash ≠ c.hash)
        | none => false)

/-- Modelled from the spec: `isChainValid()` — scan every index,
collect the offending ones, and return overall validity together with
that list (empty exactly when valid). -/
def isChainValid (digest : Digest) (d : Nat) (chain : List Block) : Bool × List Nat :=
  let bad := (List.range chain.length).filter (offendsAt digest d chain)
  (bad.isEmpty, bad)

/-! ## PersistenceStore rows, LedgerService state (modelled from the spec, §3, §4.3, §4.4) -/

/-- Modelled from the spec: one `FingerprintIndex` row — lookup hash,
block reference and record timestamp. -/
structure FpRow where
  lookup_hash : String
  block_index : Nat
  record_timestamp : Nat
deriving DecidableEq, Repr

/-- Modelled from the spec: one optional `IdNumberIndex` row — plaintext
ID number mapped to a block reference. -/
structure IdRow where
  id_number : String
  block_index : Nat
deriving DecidableEq, Repr

/-- Modelled from the spec: one `AuditEntry` — action, details,
creation instant. -/
structure AuditEntry where
  action : String
  details : String
  created_at : Nat
deriving DecidableEq, Repr

/-- Modelled from the spec: the durable state — blocks, the fingerprint
lookup index (most recent row first), the optional plaintext ID-number
index, and the append-only audit log. -/
structure LedgerState where
  chain : List Block
  fpIndex : List FpRow
  idIndex : List IdRow
  audit : List AuditEntry
deriving DecidableEq, Repr

/-- Modelled from the spec: the error taxonomy of §7 (the model's
`persistence` also stands for an aborted mining search). -/
inductive LedgerError where
  | validation
  | notFound
  | crypto
  | persistence
deriving DecidableEq, Repr

/-- Modelled from the spec: the fixed diagnostic message attached to each
typed failure; none of them embeds caller data. -/
def errMsg : LedgerError → String
  | .validation => "document map is empty or an entry lacks the required id field"
  | .notFound => "no record matches"
  | .crypto => "envelope malformed"
  | .persistence => "persistence failure"

deriving instance DecidableEq for Except

/-- A document map: declared document-type label mapped to that entry's
field map (the required identifier field has key `id`). -/
abbrev DocumentMap := List (String × List (String × String))

/-- Modelled from the spec: `register`'s validation — the document map is
non-empty and every entry has the required identifier field. -/
def validDoc (doc : DocumentMap) : Bool :=
  !doc.isEmpty && doc.all (fun e => (e.2.lookup "id").isSome)

/-- The plaintext ID numbers declared in a document map (the value of
each entry's required `id` field). -/
def idValues (doc : DocumentMap) : List String :=
  doc.filterMap (fun e => e.2.lookup "id")

/-- String to bytes, one byte per character code. -/
def strToBytes (s : String) : Bytes :=
  s.toList.map Char.toNat

/-- The environment a ledger deployment runs in: the parametric hash and
cipher primitives, the document codec, and the configuration surface
(difficulty, optional lookup salt, KDF iteration count, cipher mode,
ID-number index toggle, mining search window). -/
structure Env where
  digest : Digest
  hashStr : String → String
  hashB : Bytes → Bytes
  enc : Bytes → Bytes → Bytes
  dec : Bytes → Bytes → Bytes
  ser : DocumentMap → Bytes
  deser : Bytes → Option DocumentMap
  useFallback : Bool
  iters : Nat
  difficulty : Nat
  secretSalt : String
  idIndexEnabled : Bool
  fuel : Nat

/-- Modelled from the spec: the lookup-hash derivation
`digest(optionalSalt ‖ rawSecret)` — applied unconditionally, also when
the optional deployment salt is unset (empty). -/
def lookupHash (env : Env) (raw : String) : String :=
  env.hashStr (env.secretSalt ++ ":" ++ raw)

/-- Modelled from the spec: the genesis payload — an empty marker record. -/
def genesisPayload : Payload :=
  ⟨"", [], [], 0⟩

/-- Modelled from the spec: first initialization of an empty store —
create the genesis block (index 0, sentinel previous hash, empty marker
payload, mined at the configured difficulty) and persist it. -/
def initChain (env : Env) : Option LedgerState :=
  match appendBlock env.digest env.difficulty env.fuel [] genesisPayload 0 with
  | none => none
  | some (chain, _) => some ⟨chain, [], [], []⟩

/-- Modelled from the spec: `register(rawSecret, documentMap)` — validate,
derive the lookup hash, encrypt the document map under the raw secret,
mine and append a block, write the index rows and one audit entry, all
or nothing.  `salt`, `iv` (the fresh randomness) and `ts` (the clock)
are explicit arguments. -/
def register (env : Env) (st : LedgerState) (raw : String) (doc : DocumentMap)
    (salt iv : Bytes) (ts : Nat) : Except LedgerError (LedgerState × Nat) :=
  if !validDoc doc then .error .validation
  else
    let lh := lookupHash env raw
    let blob := encryptWith env.enc env.useFallback env.hashB env.iters salt iv
      (env.ser doc) (strToBytes raw)
    let p : Payload := ⟨lh, blob, doc.map Prod.fst, ts⟩
    match appendBlock env.digest env.difficulty env.fuel st.chain p ts with
    | none => .error .persistence
    | some (chain, b) =>
      let idRows := if env.idIndexEnabled then
        (idValues doc).map (fun v => IdRow.mk v b.index) else []
      .ok (⟨chain, FpRow.mk lh b.index ts :: st.fpIndex,
            idRows ++ st.idIndex,
            st.audit ++ [AuditEntry.mk "register" lh ts]⟩, b.index)

/-- The all-or-nothing view of `register`: the state it leaves behind —
the committed state on success, the unchanged input state on failure. -/
def registerOrKeep (env : Env) (st : LedgerState) (raw : String) (doc : DocumentMap)
    (salt iv : Bytes) (ts : Nat) : LedgerState :=
  match register env st raw doc salt iv ts with
  | .ok (st', _) => st'
  | .error _ => st

/-- Run a sequence of `register` calls, propagating failure. -/
def registerMany (env : Env) (st : LedgerState) :
    List (String × DocumentMap × Bytes × Bytes × Nat) → Option LedgerState
  | [] => some st
  | (raw, doc, salt, iv, ts) :: rest =>
    match register env st raw doc salt iv ts with
    | .ok (st', _) => registerMany env st' rest
    | .error _ => none

/-- Modelled from the spec: `lookup(rawSecret)` — derive the lookup hash,
take the most recent matching fingerprint-index row, decrypt that
block's envelope under the raw secret and deserialize it
(latest-wins read policy). -/
def lookup (env : Env) (st : LedgerState) (raw : String) :
    Except LedgerError DocumentMap :=
  let lh := lookupHash env raw
  match (st.fpIndex.filter (fun r => r.lookup_hash = lh)) with
  | [] => .error .notFound
  | r :: _ =>
    match st.chain[r.block_index]? with
    | none => .error .notFound
    | some b =>
      match decryptWith env.dec env.hashB env.iters b.payload.encrypted_ids
          (strToBytes raw) with
      | none => .error .crypto
      | some pt =>
        match env.deser pt with
        | none => .error .crypto
        | some doc => .ok doc

/-- Modelled from the spec: `searchByIdNumber(idNumber)` — index metadata
only, no decryption, no secret. -/
def searchByIdNumber (st : LedgerState) (idn : String) : List IdRow :=
  st.idIndex.filter (fun r => r.id_number = idn)

/-- Modelled from the spec: `verify()` — delegates to `isChainValid`,
appending one audit entry and changing nothing else. -/
def verify (env : Env) (st : LedgerState) (ts : Nat) :
    (Bool × List Nat) × LedgerState :=
  (isChainValid env.digest env.difficulty st.chain,
   ⟨st.chain, st.fpIndex, st.idIndex, st.audit ++ [AuditEntry.mk "verify" "" ts]⟩)

/-- Modelled from the spec: every string a ledger state holds in the
audit log and the two index tables — the write sinks §5 forbids the raw
secret from ever reaching. -/
def durableStrings (st : LedgerState) : List String :=
  (st.audit.map AuditEntry.action) ++ (st.audit.map AuditEntry.details) ++
    (st.fpIndex.map FpRow.lookup_hash) ++ (st.idIndex.map IdRow.id_number)

/-- The states a deployment can reach: first initialization of an empty
store, then any interleaving of successful `register` calls and
`verify` calls. -/
inductive Reachable (env : Env) : LedgerState → Prop where
  | init : ∀ st, initChain env = some st → Reachable env st
  | register : ∀ st raw doc salt iv ts st' r, Reachable env st →
      register env st raw doc salt iv ts = .ok (st', r) → Reachable env st'
  | verify : ∀ st ts, Reachable env st → Reachable env (verify env st ts).2

/-- The chain invariant of §3: positions are the indices with no gaps,
every stored hash is the recomputed digest of the block's own fields and
meets the difficulty, every non-genesis block links to its
predecessor's hash, and position 0 is the genesis block (sentinel
previous hash, empty marker payload, index 0). -/
def ChainInv (digest : Digest) (d : Nat) (chain : List Block) : Prop :=
  (∀ i b, chain[i]? = some b →
    b.index = i ∧
    b.hash = digest b.index b.timestamp b.payload b.previous_hash b.nonce ∧
    hasDifficulty b.hash d = true ∧
    ∀ j c, i = j + 1 → chain[j]? = some c → b.previous_hash = c.hash) ∧
  (∀ b, chain[0]? = some b →
    b.index = 0 ∧ b.previous_hash = sentinel ∧ b.payload = genesisPayload)

/-- Modelled from the spec: `encrypt(plaintextRecord, secret)` at the
record level — serialize the document map, then run `encryptWith`. -/
def encryptRecord (E : Bytes → Bytes → Bytes) (useFallback : Bool) (hashB : Bytes → Bytes)
    (iters : Nat) (ser : DocumentMap → Bytes) (salt iv : Bytes) (record : DocumentMap)
    (secret : String) : Bytes :=
  encryptWith E useFallback hashB iters salt iv (ser record) (strToBytes secret)

/-- Modelled from the spec: `decrypt(envelope, secret)` at the record
level — run `decryptWith`, then deserialize the plaintext. -/
def decryptRecord (D : Bytes → Bytes → Bytes) (hashB : Bytes → Bytes) (iters : Nat)
    (deser : Bytes → Option DocumentMap) (envl : Bytes) (secret : String) :
    Option DocumentMap :=
  (decryptWith D hashB iters envl (strToBytes secret)).bind deser

/-- Modelled from the spec: `export()` — every block, ciphertext
included, never decrypted, as a self-contained document. -/
def exportChain (st : LedgerState) : List Block :=
  st.chain

/-! ## API route handlers (translated from the TypeScript sources) -/

/-- One hex digit as a character, matching Node's lowercase hex: digits
for values below ten, then lowercase letters. -/
def hexDigit (n : Nat) : Char :=
  if n < 10 then Char.ofNat (48 + n) else Char.ofNat (87 + n)

/-- Node's `Buffer.toString("hex")`: two lowercase hex digits per byte. -/
def bytesToHex (bs : Bytes) : String :=
  String.mk ((bs.map (fun b => [hexDigit (b / 16 % 16), hexDigit (b % 16)])).flatten)

/-- Whether a character is a lowercase hex digit. -/
def isHexChar (c : Char) : Bool :=
  ('0' ≤ c && c ≤ '9') || ('a' ≤ c && c ≤ 'f')

/-- The observable outcome of the `create-m2m-token` route: HTTP status
and the JSON body fields the handler can set. -/
structure M2MResult where
  status : Nat
  success : Bool
  token : Option String
  expiresAtDays : Option Nat
  validityDays : Option Nat
  error : Option String
deriving DecidableEq, Repr

/-- The `POST /api/create-m2m-token` handler
(`frontend/app/api/create-m2m-token/route.ts`): 401 without a Clerk
user, 403 unless the requester's `publicMetadata.role` is `admin`,
otherwise a token `m2m_` ++ hex of 32 random bytes, valid 365 days.
`userId` is Clerk's authentication result, `role` the metadata of each
user, `rand` the 32 bytes drawn from `randomBytes`, `today` the clock
in days. -/
def createM2MToken (userId : Option String) (role : String → Option String)
    (rand : Bytes) (today : Nat) : M2MResult :=
  match userId with
  | none => ⟨401, false, none, none, none, some "Unauthorized"⟩
  | some uid =>
    if role uid ≠ some "admin" then
      ⟨403, false, none, none, none, some "Forbidden - Admin access required"⟩
    else
      let token := "m2m_" ++ bytesToHex rand
      let validityDays := 365
      ⟨200, true, some token, some (today + validityDays), some validityDays, none⟩

/-- The request body of the `create-user` route; absent JSON fields are
`none`. -/
structure CreateUserBody where
  email : Option String
  password : Option String
  role : Option String
  firstName : Option String
  lastName : Option String
deriving DecidableEq, Repr

/-- JavaScript truthiness of an optional string field (`undefined` and
the empty string are falsy). -/
def jsTruthy : Option String → Bool
  | none => false
  | some s => s ≠ ""

/-- The parameters the handler passes to Clerk's `createUser`. -/
structure CreateParams where
  email : String
  password : String
  metaRole : String
  firstName : Option String
  lastName : Option String
deriving DecidableEq, Repr

/-- A Clerk user as the handler reads it back: id, primary email, and
the `publicMetadata.role` field. -/
structure ClerkUser where
  id : String
  email : Option String
  metaRole : Option String
  firstName : Option String
  lastName : Option String
deriving DecidableEq, Repr

/-- The observable outcome of the `create-user` route: HTTP status, the
returned user's role when one was created, the parameters actually sent
to Clerk (`none` when no user was created), and the error message. -/
structure CreateUserResult where
  status : Nat
  success : Bool
  userRole : Option String
  created : Option CreateParams
  error : Option String
deriving DecidableEq, Repr

/-- The `POST` create-user handler (`src/unnamed/part_001`): 401 without
a Clerk user, 403 unless the requester is an admin, 400 when email,
password or role is missing (JS-falsy) or the role is neither `gov` nor
`admin`; otherwise create the user with `publicMetadata.role` set to the
requested role and echo that user's role back.  `mkUser` models Clerk's
`users.createUser`. -/
def createUserRoute (userId : Option String) (role : String → Option String)
    (mkUser : CreateParams → ClerkUser) (body : CreateUserBody) : CreateUserResult :=
  match userId with
  | none => ⟨401, false, none, none, some "Unauthorized"⟩
  | some uid =>
    if role uid ≠ some "admin" then
      ⟨403, false, none, none, some "Forbidden - Admin access required"⟩
    else if !(jsTruthy body.email && jsTruthy body.password && jsTruthy body.role) then
      ⟨400, false, none, none, some "Email, password, and role are required"⟩
    else
      let r := body.role.getD ""
      if !(["gov", "admin"].contains r) then
        ⟨400, false, none, none, some "Invalid role. Must be gov or admin"⟩
      else
        let params : CreateParams :=
          ⟨body.email.getD "", body.password.getD "", r, body.firstName, body.lastName⟩
        let u := mkUser params
        ⟨200, true, u.metaRole, some params, none⟩

/-! ## Concrete instantiation used by the witnesses

A small, fully computable environment: an injective-enough string digest
whose outputs all start with a zero (so mining at difficulty 1 succeeds
at once), an identity byte-hash, the identity block cipher, and a
two-point document codec. -/

/-- Decimal digits of a natural, as characters. -/
def natChars (n : Nat) : List Char :=
  (Nat.repr n).toList

/-- A concrete block digest for witnesses: a zero, then a separated
rendering of every field the chain invariant cares about. -/
def digestW : Digest := fun i t p prev n =>
  String.mk ('0' :: (natChars i ++ ('|' :: natChars t) ++ ('|' :: p.lookup_hash.toList)
    ++ ('|' :: natChars p.record_timestamp) ++ ('|' :: natChars p.encrypted_ids.length)
    ++ ('|' :: natChars p.encrypted_ids.sum) ++ ('|' :: prev.toList)
    ++ ('|' :: natChars n)))

/-- A concrete lookup-hash primitive for witnesses: mark the input with a
leading letter, so no output ever equals a raw secret that starts
differently. -/
def hashStrW (s : String) : String :=
  String.mk ('h' :: s.toList)

/-- Two concrete document maps used by the witnesses. -/
def docW1 : DocumentMap := [("PASSPORT", [("id", "P1")])]

/-- Second concrete document map, a superset registration. -/
def docW2 : DocumentMap := [("PASSPORT", [("id", "P1")]), ("BCID", [("id", "B2")])]

/-- A two-point document serializer for witnesses. -/
def serW (d : DocumentMap) : Bytes :=
  if d = docW2 then [2] else if d = docW1 then [1] else [0]

/-- Partial inverse of `serW`. -/
def deserW (b : Bytes) : Option DocumentMap :=
  if b = [2] then some docW2 else if b = [1] then some docW1 else none

/-- Concrete 16-byte salt for witnesses. -/
def saltW : Bytes := List.replicate 16 3

/-- Concrete 16-byte initialization vector for witnesses. -/
def ivW : Bytes := List.replicate 16 5

/-- The witness environment: difficulty 1, fallback cipher mode, one KDF
iteration, identity primitives, empty deployment salt. -/
def envW : Env where
  digest := digestW
  hashStr := hashStrW
  hashB := fun b => b
  enc := fun _ b => b
  dec := fun _ b => b
  ser := serW
  deser := deserW
  useFallback := true
  iters := 1
  difficulty := 1
  secretSalt := ""
  idIndexEnabled := true
  fuel := 8

/-- The state after first initialization under `envW`: just the genesis
block. -/
def stW : LedgerState :=
  ⟨[⟨0, 0, genesisPayload, sentinel, 0, digestW 0 0 genesisPayload sentinel 0⟩], [], [], []⟩

/-- One valid register input for the witnesses. -/
def inpW : String × DocumentMap × Bytes × Bytes × Nat :=
  ("secret", docW1, saltW, ivW, 7)

/-- The state after registering `inpW` on the fresh store. -/
def stW1 : LedgerState :=
  (registerMany envW stW [inpW]).getD ⟨[], [], [], []⟩

/-- The block that register appended in `stW1`. -/
def blkW1 : Block :=
  stW1.chain.getD 1 default

/-- The state after a second registration, same secret, superset
document map. -/
def stW2 : LedgerState :=
  registerOrKeep envW stW1 "secret" docW2 saltW ivW 9

/-- The block `blkW1` with one payload field mutated. -/
def blkW1mut : Block :=
  ⟨blkW1.index, blkW1.timestamp,
    ⟨blkW1.payload.lookup_hash, blkW1.payload.encrypted_ids, blkW1.payload.id_types, 99⟩,
    blkW1.previous_hash, blkW1.nonce, blkW1.hash⟩

/-- A digest for the mining witness whose search succeeds only at
nonce 2. -/
def digestM : Digest := fun _ _ _ _ n =>
  if n = 2 then "0m" else "xm"

/-! # Theorems

## CryptoVault lemmas -/

/-- The keyed XOR stream is an involution at every stream position. -/
theorem xorStream_invol (key : Bytes) (data : Bytes) : ∀ (i : Nat),
    xorStream key i (xorStream key i data) = data := by
  induction data with
  | nil => intro i; rfl
  | cons b rest ih =>
    intro i
    simp only [xorStream]
    rw [Nat.xor_assoc, Nat.xor_self, Nat.xor_zero, ih]

/-- The XOR fallback cipher decrypts itself. -/
theorem xorEncrypt_invol (key data : Bytes) :
    xorEncrypt key (xorEncrypt key data) = data :=
  xorStream_invol key data 0

/-- Padding always reaches a multiple of the block size. -/
theorem pad_mod (bs : Bytes) : (pad bs).length % 16 = 0 := by
  have h := Nat.mod_lt bs.length (show 0 < 16 by omega)
  simp only [pad, List.length_append, List.length_replicate]
  omega

/-- PKCS#7-style unpadding undoes padding. -/
theorem unpad_pad (bs : Bytes) : unpad (pad bs) = some bs := by
  have hlt : bs.length % 16 < 16 := Nat.mod_lt _ (by omega)
  set p := 16 - bs.length % 16 with hp
  have hp1 : 1 ≤ p := by omega
  have hrep : List.replicate p p = List.replicate (p - 1) p ++ [p] := by
    obtain ⟨q, hq⟩ : ∃ q, p = q + 1 := ⟨p - 1, by omega⟩
    rw [hq, List.replicate_succ']
    simp
  have hlast : (pad bs).getLast? = some p := by
    rw [pad, ← hp, hrep, ← List.append_assoc]
    simp
  have hlen : (pad bs).length = bs.length + p := by
    simp [pad, ← hp]
  have hsub : (pad bs).length - p = bs.length := by omega
  rw [unpad, hlast]
  simp only [Option.some.injEq]
  rw [if_neg (by omega), if_pos]
  · rw [hsub, pad, ← hp, List.take_left]
  · rw [hsub, pad, ← hp, List.drop_left]
    simp [List.all_eq_true, List.mem_replicate]

/-- Unfolding lemma: chunking a non-empty byte string. -/
theorem toBlocks_cons (bs : Bytes) (h : bs ≠ []) :
    toBlocks bs = bs.take 16 :: toBlocks (bs.drop 16) := by
  rw [toBlocks]
  simp [h]

/-- Unfolding lemma: chunking the empty byte string. -/
theorem toBlocks_nil : toBlocks [] = [] := by
  rw [toBlocks]
  simp

/-- Rejoining the chunks gives the original byte string back. -/
theorem flatten_toBlocks (bs : Bytes) : (toBlocks bs).flatten = bs := by
  induction bs using toBlocks.induct with
  | case1 => simp [toBlocks_nil]
  | case2 bs h ih =>
    rw [toBlocks_cons bs h]
    simp [ih]

/-- Chunking a byte string whose length is a multiple of 16 yields
16-byte chunks only. -/
theorem toBlocks_length16 (bs : Bytes) : 16 ∣ bs.length →
    ∀ b ∈ toBlocks bs, b.length = 16 := by
  induction bs using toBlocks.induct with
  | case1 => intro _ b hb; rw [toBlocks_nil] at hb; simp at hb
  | case2 bs h ih =>
    intro hdvd b hb
    have hpos : 0 < bs.length := List.length_pos.mpr h
    obtain ⟨k, hk⟩ := hdvd
    have h16 : 16 ≤ bs.length := by omega
    rw [toBlocks_cons bs h] at hb
    rcases List.mem_cons.mp hb with rfl | hb'
    · simp only [List.length_take]
      omega
    · exact ih ⟨k - 1, by simp only [List.length_drop]; omega⟩ b hb'

/-- Chunking a join of 16-byte blocks gives the blocks back. -/
theorem toBlocks_flatten (l : List Bytes) (hl : ∀ b ∈ l, b.length = 16) :
    toBlocks l.flatten = l := by
  induction l with
  | nil => simp [toBlocks_nil]
  | cons b rest ih =>
    have hb : b.length = 16 := hl b (by simp)
    have hbne : b ≠ [] := by
      intro hb0
      rw [hb0] at hb
      simp at hb
    rw [List.flatten_cons, toBlocks_cons _ (by simp [hbne])]
    congr 1
    · rw [← hb, List.take_left]
    · rw [← hb, List.drop_left, ih (fun x hx => hl x (by simp [hx]))]

/-- Pointwise XOR against a fixed mask is an involution on byte strings
no longer than the mask. -/
theorem xorBytes_cancel : ∀ (a b : Bytes), b.length ≤ a.length →
    xorBytes a (xorBytes a b) = b := by
  intro a b
  induction b generalizing a with
  | nil =>
    intro _
    cases a <;> rfl
  | cons x xs ih =>
    intro hle
    cases a with
    | nil => simp at hle
    | cons y ys =>
      simp only [xorBytes, List.zipWith_cons_cons]
      rw [← Nat.xor_assoc, Nat.xor_self, Nat.zero_xor]
      simp only [List.length_cons] at hle
      have := ih ys (by omega)
      simp only [xorBytes] at this
      rw [this]

/-- Every ciphertext block of CBC encryption is 16 bytes, for a
block-size-preserving primitive. -/
theorem cbcEnc_len (E : Bytes → Bytes → Bytes) (key : Bytes)
    (hE : ∀ k b, b.length = 16 → (E k b).length = 16) :
    ∀ (l : List Bytes) (iv : Bytes), iv.length = 16 → (∀ b ∈ l, b.length = 16) →
    ∀ c ∈ cbcEnc E key iv l, c.length = 16 := by
  intro l
  induction l with
  | nil =>
    intro iv _ _ c hc
    simp [cbcEnc] at hc
  | cons b rest ih =>
    intro iv hiv hl c hc
    have hb : b.length = 16 := hl b (by simp)
    have hxor : (xorBytes iv b).length = 16 := by
      simp [xorBytes, hiv, hb]
    have hc1 : (E key (xorBytes iv b)).length = 16 := hE _ _ hxor
    simp only [cbcEnc] at hc
    rcases List.mem_cons.mp hc with rfl | hc'
    · exact hc1
    · exact ih (E key (xorBytes iv b)) hc1 (fun x hx => hl x (by simp [hx])) c hc'

/-- CBC decryption inverts CBC encryption on 16-byte blocks, for an
invertible block-size-preserving primitive. -/
theorem cbcDec_cbcEnc (E D : Bytes → Bytes → Bytes) (key : Bytes)
    (hD : ∀ k b, b.length = 16 → D k (E k b) = b)
    (hE : ∀ k b, b.length = 16 → (E k b).length = 16) :
    ∀ (l : List Bytes) (iv : Bytes), iv.length = 16 → (∀ b ∈ l, b.length = 16) →
    cbcDec D key iv (cbcEnc E key iv l) = l := by
  intro l
  induction l with
  | nil => intro iv _ _; rfl
  | cons b rest ih =>
    intro iv hiv hl
    have hb : b.length = 16 := hl b (by simp)
    have hxor : (xorBytes iv b).length = 16 := by
      simp [xorBytes, hiv, hb]
    simp only [cbcEnc, cbcDec]
    rw [hD key _ hxor, xorBytes_cancel iv b (by omega),
      ih (E key (xorBytes iv b)) (hE _ _ hxor) (fun x hx => hl x (by simp [hx]))]

/-- Decryption undoes encryption at the byte level, in both cipher
modes. -/
theorem decryptWith_encryptWith (E D : Bytes → Bytes → Bytes) (useFallback : Bool)
    (hashB : Bytes → Bytes) (iters : Nat) (salt iv pt secret : Bytes)
    (hs : salt.length = 16) (hiv : iv.length = 16)
    (hD : ∀ k b, b.length = 16 → D k (E k b) = b)
    (hE : ∀ k b, b.length = 16 → (E k b).length = 16) :
    decryptWith D hashB iters (encryptWith E useFallback hashB iters salt iv pt secret)
      secret = some pt := by
  have e1 : ∀ rest : Bytes, (salt ++ rest).take 16 = salt := by
    intro rest
    rw [← hs]
    exact List.take_left _ _
  have e2 : ∀ rest : Bytes, (salt ++ rest).drop 16 = rest := by
    intro rest
    rw [← hs]
    exact List.drop_left _ _
  have e3 : ∀ ct : Bytes, (iv ++ ct).take 16 = iv := by
    intro ct
    rw [← hiv]
    exact List.take_left _ _
  have e4 : ∀ ct : Bytes, (iv ++ ct).drop 16 = ct := by
    intro ct
    rw [← hiv]
    exact List.drop_left _ _
  cases useFallback with
  | true =>
    simp only [encryptWith, if_pos, decryptWith, e1, e2, e3, e4, if_true]
    rw [xorEncrypt_invol]
  | false =>
    simp only [encryptWith, decryptWith, e1, e2, e3, e4, Bool.false_eq_true, if_false,
      if_true]
    have hblocks : ∀ b ∈ toBlocks (pad pt), b.length = 16 :=
      toBlocks_length16 (pad pt) (Nat.dvd_of_mod_eq_zero (pad_mod pt))
    rw [toBlocks_flatten _
        (cbcEnc_len E (deriveKey hashB secret salt iters) hE _ iv hiv hblocks),
      cbcDec_cbcEnc E D _ hD hE _ iv hiv hblocks, flatten_toBlocks, unpad_pad]
    simp

/-- C3: for every document-map record and secret, decrypt after encrypt
returns the record, in the primary chained-block-cipher mode and
identically in the degraded keyed-XOR fallback mode — given fresh
16-byte salt and iv, an invertible block-size-preserving cipher
primitive, and a document codec that inverts on this record. -/
theorem spec_c3_decrypt_encrypt_roundtrip
    (E D : Bytes → Bytes → Bytes) (hashB : Bytes → Bytes) (iters : Nat)
    (ser : DocumentMap → Bytes) (deser : Bytes → Option DocumentMap)
    (salt iv : Bytes) (record : DocumentMap) (secret : String)
    (hs : salt.length = 16) (hiv : iv.length = 16)
    (hD : ∀ k b, b.length = 16 → D k (E k b) = b)
    (hE : ∀ k b, b.length = 16 → (E k b).length = 16)
    (hcodec : deser (ser record) = some record) :
    decryptRecord D hashB iters deser
      (encryptRecord E false hashB iters ser salt iv record secret) secret = some record
    ∧ decryptRecord D hashB iters deser
      (encryptRecord E true hashB iters ser salt iv record secret) secret = some record := by
  constructor <;>
  · unfold decryptRecord encryptRecord
    rw [decryptWith_encryptWith E D _ hashB iters salt iv _ _ hs hiv hD hE]
    simp [hcodec]

/-- Witness for C3 at a concrete record, secret and primitive set. -/
theorem spec_c3_witness :
    decryptRecord (fun _ b => b) (fun b => b) 1 deserW
      (encryptRecord (fun _ b => b) false (fun b => b) 1 serW saltW ivW docW2 "secret")
      "secret" = some docW2
    ∧ decryptRecord (fun _ b => b) (fun b => b) 1 deserW
      (encryptRecord (fun _ b => b) true (fun b => b) 1 serW saltW ivW docW2 "secret")
      "secret" = some docW2 :=
  spec_c3_decrypt_encrypt_roundtrip (fun _ b => b) (fun _ b => b) (fun b => b) 1
    serW deserW saltW ivW docW2 "secret" (by decide) (by decide)
    (fun _ _ _ => rfl) (fun _ _ h => h) (by decide)

/-- C4: encryption is non-deterministic across calls — whenever the two
fresh random draws differ in the salt or in the iv, the two envelopes
differ, for identical plaintext and secret. -/
theorem spec_c4_encrypt_nondeterministic
    (E : Bytes → Bytes → Bytes) (useFallback : Bool) (hashB : Bytes → Bytes) (iters : Nat)
    (salt1 iv1 salt2 iv2 pt secret : Bytes)
    (hs1 : salt1.length = 16) (hs2 : salt2.length = 16)
    (hiv1 : iv1.length = 16) (hiv2 : iv2.length = 16)
    (hfresh : salt1 ≠ salt2 ∨ iv1 ≠ iv2) :
    encryptWith E useFallback hashB iters salt1 iv1 pt secret ≠
      encryptWith E useFallback hashB iters salt2 iv2 pt secret := by
  intro heq
  cases useFallback <;>
    simp only [encryptWith, Bool.false_eq_true, if_false, if_true, List.cons.injEq] at heq
  case false =>
    obtain ⟨-, heq2⟩ := heq
    obtain ⟨hsalt, heq3⟩ := List.append_inj heq2 (hs1.trans hs2.symm)
    obtain ⟨hivs, -⟩ := List.append_inj heq3 (hiv1.trans hiv2.symm)
    rcases hfresh with h | h <;> exact h (by assumption)
  case true =>
    obtain ⟨-, heq2⟩ := heq
    obtain ⟨hsalt, heq3⟩ := List.append_inj heq2 (hs1.trans hs2.symm)
    obtain ⟨hivs, -⟩ := List.append_inj heq3 (hiv1.trans hiv2.symm)
    rcases hfresh with h | h <;> exact h (by assumption)

/-- Witness for C4 at two concrete draws differing in the salt. -/
theorem spec_c4_witness :
    encryptWith (fun _ b => b) true (fun b => b) 1 saltW ivW [7] [9] ≠
      encryptWith (fun _ b => b) true (fun b => b) 1 (List.replicate 16 4) ivW [7] [9] :=
  spec_c4_encrypt_nondeterministic (fun _ b => b) true (fun b => b) 1
    saltW ivW (List.replicate 16 4) ivW [7] [9] (by decide) (by decide) (by decide)
    (by decide) (Or.inl (by decide))

/-! ## Mining lemmas -/

/-- What a successful bounded mining search guarantees: the returned
hash is the digest at the returned nonce, it meets the difficulty, the
nonce is at least the starting one, and no nonce between the start and
the result satisfies the difficulty. -/
theorem mineAux_ok (digest : Digest) (idx ts : Nat) (p : Payload) (prev : String)
    (d : Nat) : ∀ (fuel start n : Nat) (h : String),
    mineAux digest idx ts p prev d fuel start = some (n, h) →
    h = digest idx ts p prev n ∧ hasDifficulty h d = true ∧ start ≤ n ∧
    ∀ m, start ≤ m → m < n → hasDifficulty (digest idx ts p prev m) d = false := by
  intro fuel
  induction fuel with
  | zero =>
    intro start n h hm
    simp [mineAux] at hm
  | succ fuel ih =>
    intro start n h hm
    simp only [mineAux] at hm
    by_cases hd : hasDifficulty (digest idx ts p prev start) d
    · rw [if_pos hd] at hm
      simp only [Option.some.injEq, Prod.mk.injEq] at hm
      obtain ⟨rfl, rfl⟩ := hm
      exact ⟨rfl, hd, Nat.le_refl _, fun m h1 h2 => absurd h1 (by omega)⟩
    · rw [if_neg hd] at hm
      obtain ⟨he, hdd, hle, hmin⟩ := ih (start + 1) n h hm
      refine ⟨he, hdd, by omega, fun m h1 h2 => ?_⟩
      rcases Nat.eq_or_lt_of_le h1 with rfl | h1'
      · exact Bool.eq_false_iff.mpr hd
      · exact hmin m (by omega) h2

/-- C2: whenever `mine` succeeds at a difficulty in the practical range,
the returned hash is the recomputed digest at the returned nonce with
the required leading zeros, and the nonce is the least one satisfying
this — the search starts at 0 and increments by 1. -/
theorem spec_c2_mine_minimal_nonce (digest : Digest) (idx ts : Nat) (p : Payload)
    (prev : String) (d fuel n : Nat) (h : String)
    (hd1 : 1 ≤ d) (hd6 : d ≤ 6)
    (hm : mine digest idx ts p prev d fuel = some (n, h)) :
    h = digest idx ts p prev n ∧ hasDifficulty h d = true ∧
    ∀ m < n, hasDifficulty (digest idx ts p prev m) d = false := by
  obtain ⟨he, hdd, -, hmin⟩ := mineAux_ok digest idx ts p prev d fuel 0 n h hm
  exact ⟨he, hdd, fun m h2 => hmin m (Nat.zero_le m) h2⟩

/-- Witness for C2: a concrete digest whose search succeeds first at
nonce 2. -/
theorem spec_c2_witness :
    "0m" = digestM 0 0 genesisPayload sentinel 2 ∧
    hasDifficulty "0m" 1 = true ∧
    hasDifficulty (digestM 0 0 genesisPayload sentinel 0) 1 = false ∧
    hasDifficulty (digestM 0 0 genesisPayload sentinel 1) 1 = false := by
  have h := spec_c2_mine_minimal_nonce digestM 0 0 genesisPayload sentinel 1 10 2 "0m"
    (by decide) (by decide) (by decide)
  exact ⟨h.1, h.2.1, h.2.2 0 (by omega), h.2.2 1 (by omega)⟩

/-! ## Chain construction lemmas -/

/-- What a successful `appendBlock` guarantees about the appended
block. -/
theorem appendBlock_ok (digest : Digest) (d fuel : Nat) (chain : List Block) (p : Payload)
    (ts : Nat) (chain' : List Block) (b : Block)
    (h : appendBlock digest d fuel chain p ts = some (chain', b)) :
    chain' = chain ++ [b] ∧ b.index = chain.length ∧ b.timestamp = ts ∧ b.payload = p ∧
    b.previous_hash = (match chain.getLast? with
      | some c => c.hash
      | none => sentinel) ∧
    b.hash = digest b.index b.timestamp b.payload b.previous_hash b.nonce ∧
    hasDifficulty b.hash d = true := by
  simp only [appendBlock] at h
  cases hm : mine digest chain.length ts p
      (match chain.getLast? with
        | some c => c.hash
        | none => sentinel) d fuel with
  | none =>
    rw [hm] at h
    simp at h
  | some nh =>
    obtain ⟨n, hh⟩ := nh
    rw [hm] at h
    simp only [Option.some.injEq, Prod.mk.injEq] at h
    obtain ⟨hc, hb⟩ := h
    subst hc
    subst hb
    obtain ⟨he, hdd, -, -⟩ := mineAux_ok digest chain.length ts p _ d fuel 0 n hh hm
    exact ⟨rfl, rfl, rfl, rfl, rfl, he, hdd⟩

/-- What a successful `register` guarantees: validation passed, and the
new state is exactly the old one extended by the freshly mined block,
its fingerprint-index row, its optional ID-number rows, and one audit
entry. -/
theorem register_ok (env : Env) (st : LedgerState) (raw : String) (doc : DocumentMap)
    (salt iv : Bytes) (ts : Nat) (st' : LedgerState) (r : Nat)
    (h : register env st raw doc salt iv ts = .ok (st', r)) :
    validDoc doc = true ∧
    ∃ b : Block,
      b.index = st.chain.length ∧ b.timestamp = ts ∧
      b.payload = ⟨lookupHash env raw,
        encryptWith env.enc env.useFallback env.hashB env.iters salt iv (env.ser doc)
          (strToBytes raw), doc.map Prod.fst, ts⟩ ∧
      b.previous_hash = (match st.chain.getLast? with
        | some c => c.hash
        | none => sentinel) ∧
      b.hash = env.digest b.index b.timestamp b.payload b.previous_hash b.nonce ∧
      hasDifficulty b.hash env.difficulty = true ∧
      st' = ⟨st.chain ++ [b],
        ⟨lookupHash env raw, b.index, ts⟩ :: st.fpIndex,
        (if env.idIndexEnabled then (idValues doc).map (fun v => IdRow.mk v b.index)
          else []) ++ st.idIndex,
        st.audit ++ [⟨"register", lookupHash env raw, ts⟩]⟩ ∧
      r = b.index := by
  unfold register at h
  by_cases hv : validDoc doc
  · rw [hv] at h
    simp only [Bool.not_true, Bool.false_eq_true, if_false] at h
    cases hab : appendBlock env.digest env.difficulty env.fuel st.chain
        ⟨lookupHash env raw,
          encryptWith env.enc env.useFallback env.hashB env.iters salt iv (env.ser doc)
            (strToBytes raw), doc.map Prod.fst, ts⟩ ts with
    | none =>
      rw [hab] at h
      simp at h
    | some pr =>
      obtain ⟨chain2, b⟩ := pr
      rw [hab] at h
      simp only [Except.ok.injEq, Prod.mk.injEq] at h
      obtain ⟨hst, hr⟩ := h
      obtain ⟨hc, hidx, hts, hp, hprev, hhash, hdiff⟩ :=
        appendBlock_ok _ _ _ _ _ _ _ _ hab
      subst hc
      exact ⟨hv, b, hidx, hts, hp, hprev, hhash, hdiff, hst.symm, hr.symm⟩
  · rw [Bool.not_eq_true] at hv
    rw [hv] at h
    simp at h

/-- A single properly mined genesis-shaped block satisfies the chain
invariant. -/
theorem chainInv_single (digest : Digest) (d : Nat) (b : Block)
    (hidx : b.index = 0) (hprev : b.previous_hash = sentinel)
    (hp : b.payload = genesisPayload)
    (hhash : b.hash = digest b.index b.timestamp b.payload b.previous_hash b.nonce)
    (hdiff : hasDifficulty b.hash d = true) :
    ChainInv digest d [b] := by
  constructor
  · intro i bi hbi
    cases i with
    | zero =>
      simp only [List.getElem?_cons_zero, Option.some.injEq] at hbi
      subst hbi
      exact ⟨hidx, hhash, hdiff, fun j c hj => by omega⟩
    | succ n => simp at hbi
  · intro b0 hb0
    simp only [List.getElem?_cons_zero, Option.some.injEq] at hb0
    subst hb0
    exact ⟨hidx, hprev, hp⟩

/-- Appending a properly mined and linked block preserves the chain
invariant. -/
theorem chainInv_append (digest : Digest) (d : Nat) (chain : List Block) (b : Block)
    (hinv : ChainInv digest d chain) (hne : chain ≠ [])
    (hidx : b.index = chain.length)
    (hhash : b.hash = digest b.index b.timestamp b.payload b.previous_hash b.nonce)
    (hdiff : hasDifficulty b.hash d = true)
    (hprev : b.previous_hash = (match chain.getLast? with
      | some c => c.hash
      | none => sentinel)) :
    ChainInv digest d (chain ++ [b]) := by
  obtain ⟨h1, h2⟩ := hinv
  have hpos : 0 < chain.length := List.length_pos.mpr hne
  constructor
  · intro i bi hbi
    by_cases hi : i < chain.length
    · rw [List.getElem?_append_left hi] at hbi
      obtain ⟨ha, hb', hc, hd'⟩ := h1 i bi hbi
      refine ⟨ha, hb', hc, fun j c hj hcj => ?_⟩
      have hj' : j < chain.length := by omega
      rw [List.getElem?_append_left hj'] at hcj
      exact hd' j c hj hcj
    · have hlen : i < chain.length + 1 := by
        have h := (List.getElem?_eq_some.mp hbi).1
        simpa using h
      have hieq : i = chain.length := by omega
      subst hieq
      rw [List.getElem?_concat_length] at hbi
      rw [Option.some.injEq] at hbi
      subst hbi
      refine ⟨hidx, hhash, hdiff, fun j c hj hcj => ?_⟩
      have hjlt : j < chain.length := by omega
      rw [List.getElem?_append_left hjlt] at hcj
      have hlast : chain.getLast? = some c := by
        rw [List.getLast?_eq_getElem?]
        have : chain.length - 1 = j := by omega
        rw [this]
        exact hcj
      rw [hprev, hlast]
  · intro b0 hb0
    rw [List.getElem?_append_left hpos] at hb0
    exact h2 b0 hb0

/-- First initialization of an empty store yields an invariant-satisfying
one-block chain and empty index tables and audit log. -/
theorem initChain_inv (env : Env) (st : LedgerState) (h : initChain env = some st) :
    ChainInv env.digest env.difficulty st.chain ∧ st.chain ≠ [] ∧
    st.fpIndex = [] ∧ st.idIndex = [] ∧ st.audit = [] := by
  unfold initChain at h
  cases hab : appendBlock env.digest env.difficulty env.fuel [] genesisPayload 0 with
  | none =>
    rw [hab] at h
    simp at h
  | some pr =>
    obtain ⟨chain, b⟩ := pr
    rw [hab] at h
    simp only [Option.some.injEq] at h
    subst h
    obtain ⟨hc, hidx, hts, hp, hprev, hhash, hdiff⟩ := appendBlock_ok _ _ _ _ _ _ _ _ hab
    subst hc
    refine ⟨?_, by simp, rfl, rfl, rfl⟩
    simp only [List.nil_append]
    exact chainInv_single _ _ b hidx hprev hp hhash hdiff

/-- A successful `register` preserves the chain invariant and chain
non-emptiness. -/
theorem register_preserves_inv (env : Env) (st : LedgerState) (raw : String)
    (doc : DocumentMap) (salt iv : Bytes) (ts : Nat) (st' : LedgerState) (r : Nat)
    (hinv : ChainInv env.digest env.difficulty st.chain) (hne : st.chain ≠ [])
    (h : register env st raw doc salt iv ts = .ok (st', r)) :
    ChainInv env.digest env.difficulty st'.chain ∧ st'.chain ≠ [] := by
  obtain ⟨-, b, hidx, -, -, hprev, hhash, hdiff, hst, -⟩ :=
    register_ok env st raw doc salt iv ts st' r h
  subst hst
  exact ⟨chainInv_append _ _ _ b hinv hne hidx hhash hdiff hprev, by simp⟩

/-- Every reachable state's chain satisfies the invariant and is
non-empty. -/
theorem reachable_inv (env : Env) (st : LedgerState) (h : Reachable env st) :
    ChainInv env.digest env.difficulty st.chain ∧ st.chain ≠ [] := by
  induction h with
  | init st h0 =>
    obtain ⟨hi, hne, -, -, -⟩ := initChain_inv env st h0
    exact ⟨hi, hne⟩
  | register st raw doc salt iv ts st' r hre hok ih =>
    exact register_preserves_inv env st raw doc salt iv ts st' r ih.1 ih.2 hok
  | verify st ts hre ih => exact ih

/-- An invariant-satisfying chain passes validation with no offending
indices. -/
theorem chainInv_valid (digest : Digest) (d : Nat) (chain : List Block)
    (hinv : ChainInv digest d chain) : isChainValid digest d chain = (true, []) := by
  obtain ⟨h1, -⟩ := hinv
  have hall : ∀ i ∈ List.range chain.length, offendsAt digest d chain i = false := by
    intro i hi
    rw [List.mem_range] at hi
    obtain ⟨b, hb⟩ : ∃ b, chain[i]? = some b := by
      rw [List.getElem?_eq_getElem hi]
      exact ⟨_, rfl⟩
    obtain ⟨hidx, hhash, hdiff, hlink⟩ := h1 i b hb
    unfold offendsAt
    rw [hb]
    simp only [Bool.or_eq_false_iff, Bool.and_eq_false_iff]
    refine ⟨⟨by simp [← hhash], by simp [hdiff]⟩, ?_⟩
    cases i with
    | zero => left; simp
    | succ j =>
      right
      obtain ⟨c, hc⟩ : ∃ c, chain[j]? = some c := by
        rw [List.getElem?_eq_getElem (by omega)]
        exact ⟨_, rfl⟩
      have : j + 1 - 1 = j := by omega
      rw [this, hc]
      simp [hlink j c rfl hc]
  have hnil : (List.range chain.length).filter (offendsAt digest d chain) = [] := by
    rw [List.filter_eq_nil_iff]
    intro a ha
    simp [hall a ha]
  simp [isChainValid, hnil]

/-- Mutating one stored block so that its stored hash no longer matches
its recomputed digest makes validation fail and report that index.  The
hypothesis offers the two ways this arises: a pure hash mutation on an
invariant-satisfying chain, or a digest mismatch given directly (the
pointwise no-collision fact for a payload or previous-hash mutation). -/
theorem chainInv_mutation (digest : Digest) (d : Nat) (chain : List Block) (j : Nat)
    (b b' : Block) (hb : chain[j]? = some b)
    (hinv : ChainInv digest d chain)
    (hcoll : (b'.payload = b.payload ∧ b'.previous_hash = b.previous_hash ∧
        b'.index = b.index ∧ b'.timestamp = b.timestamp ∧ b'.nonce = b.nonce ∧
        b'.hash ≠ b.hash) ∨
      b'.hash ≠ digest b'.index b'.timestamp b'.payload b'.previous_hash b'.nonce) :
    (isChainValid digest d (chain.set j b')).1 = false ∧
    j ∈ (isChainValid digest d (chain.set j b')).2 := by
  have hne : b'.hash ≠ digest b'.index b'.timestamp b'.payload b'.previous_hash b'.nonce := by
    rcases hcoll with ⟨hp, hprev, hidx, hts, hn, hh⟩ | hne
    · rw [hp, hprev, hidx, hts, hn]
      obtain ⟨-, hhash, -, -⟩ := hinv.1 j b hb
      rw [← hhash]
      exact hh
    · exact hne
  have hj : j < chain.length := (List.getElem?_eq_some.mp hb).1
  have hset : (chain.set j b')[j]? = some b' := by
    rw [List.getElem?_set_self]
    exact hj
  have hoff : offendsAt digest d (chain.set j b') j = true := by
    unfold offendsAt
    rw [hset]
    simp [hne]
  have hmem : j ∈ (List.range (chain.set j b').length).filter
      (offendsAt digest d (chain.set j b')) := by
    rw [List.mem_filter, List.mem_range, List.length_set]
    exact ⟨hj, hoff⟩
  refine ⟨?_, hmem⟩
  unfold isChainValid
  cases hbad : (List.range (chain.set j b').length).filter
      (offendsAt digest d (chain.set j b')) with
  | nil =>
    rw [hbad] at hmem
    simp at hmem
  | cons x xs => simp [hbad]

/-- Successful register sequences keep states reachable. -/
theorem registerMany_reachable (env : Env) :
    ∀ (inputs : List (String × DocumentMap × Bytes × Bytes × Nat)) (st st' : LedgerState),
    Reachable env st → registerMany env st inputs = some st' → Reachable env st' := by
  intro inputs
  induction inputs with
  | nil =>
    intro st st' hr h
    simp only [registerMany, Option.some.injEq] at h
    subst h
    exact hr
  | cons inp rest ih =>
    intro st st' hr h
    obtain ⟨raw, doc, salt, iv, ts⟩ := inp
    simp only [registerMany] at h
    cases hreg : register env st raw doc salt iv ts with
    | error e =>
      rw [hreg] at h
      simp at h
    | ok pr =>
      obtain ⟨st1, r⟩ := pr
      rw [hreg] at h
      exact ih st1 st' (Reachable.register st raw doc salt iv ts st1 r hr hreg) h

/-- C1: on a fresh store, after any number of sequential successful
register calls the chain validates as `(true, [])`; and mutating any one
stored block's payload, previous-hash or hash field (the other fields
kept) makes validation return `false` with the mutated index among the
offending ones — given, for a payload or previous-hash mutation, the
pointwise fact that the mutated block's digest no longer matches its
stored hash (collision absence at that point). -/
theorem spec_c1_validity_and_tamper_evidence (env : Env)
    (inputs : List (String × DocumentMap × Bytes × Bytes × Nat)) (st0 st : LedgerState)
    (h0 : initChain env = some st0)
    (hN : registerMany env st0 inputs = some st) :
    isChainValid env.digest env.difficulty st.chain = (true, []) ∧
    ∀ j b b', st.chain[j]? = some b →
      b'.index = b.index → b'.timestamp = b.timestamp → b'.nonce = b.nonce →
      (b'.payload ≠ b.payload ∨ b'.previous_hash ≠ b.previous_hash ∨ b'.hash ≠ b.hash) →
      ((b'.payload ≠ b.payload ∨ b'.previous_hash ≠ b.previous_hash) →
        b'.hash ≠ env.digest b'.index b'.timestamp b'.payload b'.previous_hash b'.nonce) →
      (isChainValid env.digest env.difficulty (st.chain.set j b')).1 = false ∧
      j ∈ (isChainValid env.digest env.difficulty (st.chain.set j b')).2 := by
  have hreach : Reachable env st :=
    registerMany_reachable env inputs st0 st (Reachable.init st0 h0) hN
  have hinv := (reachable_inv env st hreach).1
  refine ⟨chainInv_valid _ _ _ hinv, fun j b b' hb hidx hts hn hmut hcoll => ?_⟩
  by_cases hpp : b'.payload = b.payload ∧ b'.previous_hash = b.previous_hash
  · have hh : b'.hash ≠ b.hash := by
      rcases hmut with h | h | h
      · exact absurd hpp.1 h
      · exact absurd hpp.2 h
      · exact h
    exact chainInv_mutation env.digest env.difficulty st.chain j b b' hb hinv
      (Or.inl ⟨hpp.1, hpp.2, hidx, hts, hn, hh⟩)
  · have hor : b'.payload ≠ b.payload ∨ b'.previous_hash ≠ b.previous_hash := by
      by_cases h1 : b'.payload = b.payload
      · right
        intro h2
        exact hpp ⟨h1, h2⟩
      · exact Or.inl h1
    exact chainInv_mutation env.digest env.difficulty st.chain j b b' hb hinv
      (Or.inr (hcoll hor))

/-- Witness for C1: one register on the fresh store, then a mutation of
the new block's payload timestamp. -/
theorem spec_c1_witness :
    isChainValid envW.digest envW.difficulty stW1.chain = (true, []) ∧
    (isChainValid envW.digest envW.difficulty (stW1.chain.set 1 blkW1mut)).1 = false ∧
    1 ∈ (isChainValid envW.digest envW.difficulty (stW1.chain.set 1 blkW1mut)).2 := by
  have h := spec_c1_validity_and_tamper_evidence envW [inpW] stW stW1 (by decide) (by decide)
  have h2 := h.2 1 blkW1 blkW1mut (by decide) (by decide) (by decide) (by decide)
    (by decide) (by decide)
  exact ⟨h.1, h2.1, h2.2⟩

/-- C7: every reachable chain state satisfies the structural invariant —
gapless indices, stored hash equal to the recomputed digest and meeting
the difficulty, previous-hash linkage, and a genesis block (index 0,
sentinel link, empty marker payload) at position 0 — and is non-empty,
the genesis block having been created at the initialization of the
empty store. -/
theorem spec_c7_reachable_invariant (env : Env) (st : LedgerState)
    (h : Reachable env st) :
    ChainInv env.digest env.difficulty st.chain ∧ st.chain ≠ [] :=
  reachable_inv env st h

/-- Witness for C7 at the freshly initialized store: the chain is
non-empty and position 0 carries the genesis block. -/
theorem spec_c7_witness :
    stW.chain ≠ [] ∧ (stW.chain.getD 0 default).index = 0 ∧
    (stW.chain.getD 0 default).previous_hash = sentinel ∧
    (stW.chain.getD 0 default).payload = genesisPayload := by
  have h := spec_c7_reachable_invariant envW stW (Reachable.init stW (by decide))
  exact ⟨h.2, h.1.2 (stW.chain.getD 0 default) (by decide)⟩

/-- C5: register fails with a validation error on an empty document map
or one with an entry lacking the required identifier field, and in that
case nothing is written — the state is unchanged. -/
theorem spec_c5_validation_all_or_nothing (env : Env) (st : LedgerState) (raw : String)
    (doc : DocumentMap) (salt iv : Bytes) (ts : Nat)
    (hbad : doc = [] ∨ ∃ e ∈ doc, e.2.lookup "id" = none) :
    register env st raw doc salt iv ts = .error .validation ∧
    registerOrKeep env st raw doc salt iv ts = st := by
  have hv : validDoc doc = false := by
    rcases hbad with rfl | ⟨e, he, hid⟩
    · rfl
    · unfold validDoc
      simp only [Bool.and_eq_false_iff]
      right
      rw [List.all_eq_false]
      exact ⟨e, he, by simp [hid]⟩
  have hreg : register env st raw doc salt iv ts = .error .validation := by
    unfold register
    rw [hv]
    rfl
  exact ⟨hreg, by unfold registerOrKeep; rw [hreg]⟩

/-- Witness for C5 at the empty document map. -/
theorem spec_c5_witness :
    register envW stW "secret" [] saltW ivW 3 = .error .validation ∧
    registerOrKeep envW stW "secret" [] saltW ivW 3 = stW :=
  spec_c5_validation_all_or_nothing envW stW "secret" [] saltW ivW 3 (Or.inl rfl)

/-- C6: two successful register calls with the same secret grow the
chain by exactly 2, the first call's block persists unmodified at its
index, and lookup returns the second call's document map only — given
the pointwise crypto and codec round-trip facts for the second call's
envelope. -/
theorem spec_c6_append_only_latest_wins (env : Env) (st0 : LedgerState) (raw : String)
    (doc1 doc2 : DocumentMap) (salt1 iv1 salt2 iv2 : Bytes) (ts1 ts2 : Nat)
    (st1 st2 : LedgerState) (r1 r2 : Nat)
    (h1 : register env st0 raw doc1 salt1 iv1 ts1 = .ok (st1, r1))
    (h2 : register env st1 raw doc2 salt2 iv2 ts2 = .ok (st2, r2))
    (hrt : decryptWith env.dec env.hashB env.iters
        (encryptWith env.enc env.useFallback env.hashB env.iters salt2 iv2 (env.ser doc2)
          (strToBytes raw)) (strToBytes raw) = some (env.ser doc2))
    (hdeser : env.deser (env.ser doc2) = some doc2) :
    st2.chain.length = st0.chain.length + 2 ∧
    (∃ b1, st1.chain = st0.chain ++ [b1] ∧ st2.chain[r1]? = some b1 ∧
      r1 = st0.chain.length) ∧
    lookup env st2 raw = .ok doc2 := by
  obtain ⟨-, b1, hidx1, -, -, -, -, -, hst1, hr1⟩ := register_ok _ _ _ _ _ _ _ _ _ h1
  obtain ⟨-, b2, hidx2, -, hp2, -, -, -, hst2, hr2⟩ := register_ok _ _ _ _ _ _ _ _ _ h2
  have hc1 : st1.chain = st0.chain ++ [b1] := by rw [hst1]
  have hc2 : st2.chain = st1.chain ++ [b2] := by rw [hst2]
  have hf2 : st2.fpIndex = ⟨lookupHash env raw, b2.index, ts2⟩ :: st1.fpIndex := by
    rw [hst2]
  refine ⟨?_, ⟨b1, hc1, ?_, by rw [hr1, hidx1]⟩, ?_⟩
  · rw [hc2, hc1]
    simp
  · rw [hc2, hc1, hr1, hidx1]
    rw [List.getElem?_append_left (by simp), List.getElem?_concat_length]
  · simp only [lookup]
    rw [hf2, List.filter_cons_of_pos (by simp)]
    dsimp only
    rw [hc2, hidx2, List.getElem?_concat_length]
    dsimp only
    rw [hp2]
    dsimp only
    rw [hrt]
    dsimp only
    rw [hdeser]

/-- Witness for C6: the two concrete registrations of `docW1` then
`docW2` under the same secret. -/
theorem spec_c6_witness :
    stW2.chain.length = stW.chain.length + 2 ∧
    stW2.chain[1]? = some blkW1 ∧
    lookup envW stW2 "secret" = .ok docW2 := by
  have h := spec_c6_append_only_latest_wins envW stW "secret" docW1 docW2 saltW ivW
    saltW ivW 7 9 stW1 stW2 1 2 (by decide) (by decide) (by decide) (by decide)
  refine ⟨h.1, ?_, h.2.2⟩
  obtain ⟨b1, hb1, hmem, -⟩ := h.2.1
  have hb : blkW1 = b1 := by
    unfold blkW1
    rw [List.getD_eq_getElem?_getD, hb1,
      show (1 : Nat) = stW.chain.length from rfl, List.getElem?_concat_length]
    rfl
  rw [hb]
  exact hmem

/-! ## Durable-state membership lemmas -/

/-- An audit entry's action is among the state's durable strings. -/
theorem mem_durable_of_action (st : LedgerState) (a : AuditEntry) (ha : a ∈ st.audit) :
    a.action ∈ durableStrings st := by
  unfold durableStrings
  simp only [List.mem_append, List.mem_map]
  exact Or.inl (Or.inl (Or.inl ⟨a, ha, rfl⟩))

/-- An audit entry's details are among the state's durable strings. -/
theorem mem_durable_of_details (st : LedgerState) (a : AuditEntry) (ha : a ∈ st.audit) :
    a.details ∈ durableStrings st := by
  unfold durableStrings
  simp only [List.mem_append, List.mem_map]
  exact Or.inl (Or.inl (Or.inr ⟨a, ha, rfl⟩))

/-- A fingerprint row's lookup hash is among the state's durable
strings. -/
theorem mem_durable_of_fpRow (st : LedgerState) (r : FpRow) (hr : r ∈ st.fpIndex) :
    r.lookup_hash ∈ durableStrings st := by
  unfold durableStrings
  simp only [List.mem_append, List.mem_map]
  exact Or.inl (Or.inr ⟨r, hr, rfl⟩)

/-- An ID-number row's ID number is among the state's durable strings. -/
theorem mem_durable_of_idRow (st : LedgerState) (r : IdRow) (hr : r ∈ st.idIndex) :
    r.id_number ∈ durableStrings st := by
  unfold durableStrings
  simp only [List.mem_append, List.mem_map]
  exact Or.inr ⟨r, hr, rfl⟩

/-- C8: across every ledger operation, the raw secret is never written
into the audit log, the index tables, or any diagnostic message: a
successful register leaves the durable strings free of it, so does a
verify, every error message is one of the fixed constants distinct from
it, and ID-number search only surfaces strings already stored —
assuming the secret was not durable before, the lookup-hash derivation
never outputs it (also with the deployment salt unset), it is not among
the declared document ID values, and it differs from the fixed action
and message constants. -/
theorem spec_c8_raw_secret_never_durable (env : Env) (st : LedgerState) (raw : String)
    (doc : DocumentMap) (salt iv : Bytes) (ts ts2 : Nat) (idn : String)
    (hpre : raw ∉ durableStrings st)
    (hh : ∀ s, env.hashStr s ≠ raw)
    (hids : raw ∉ idValues doc)
    (hact : raw ≠ "register" ∧ raw ≠ "verify" ∧ raw ≠ "")
    (hmsg : ∀ e, errMsg e ≠ raw) :
    (∀ st' r, register env st raw doc salt iv ts = .ok (st', r) →
      raw ∉ durableStrings st') ∧
    (∀ e, register env st raw doc salt iv ts = .error e → errMsg e ≠ raw) ∧
    raw ∉ durableStrings (verify env st ts2).2 ∧
    (∀ e, lookup env st raw = .error e → errMsg e ≠ raw) ∧
    (∀ row ∈ searchByIdNumber st idn, row.id_number ≠ raw) := by
  refine ⟨?_, fun e _ => hmsg e, ?_, fun e _ => hmsg e, ?_⟩
  · intro st' r hok hmem
    obtain ⟨-, b, -, -, -, -, -, -, hst, -⟩ := register_ok _ _ _ _ _ _ _ _ _ hok
    subst hst
    unfold durableStrings at hmem
    simp only [List.map_append, List.map_cons, List.mem_append, List.mem_cons,
      List.mem_map, List.mem_singleton] at hmem
    rcases hmem with
      (((⟨a, ha, hae⟩ | hreg | ⟨a, ha, -⟩) | (⟨a, ha, hae⟩ | hlh | ⟨a, ha, -⟩)) |
        (hlh | ⟨rr, hrr, hre⟩)) | (⟨rr, hrr, hre⟩ | ⟨rr, hrr, hre⟩)
    · exact hpre (hae ▸ mem_durable_of_action st a ha)
    · exact hact.1 hreg
    · simp at ha
    · exact hpre (hae ▸ mem_durable_of_details st a ha)
    · exact hh _ hlh.symm
    · simp at ha
    · exact hh _ hlh.symm
    · exact hpre (hre ▸ mem_durable_of_fpRow st rr hrr)
    · by_cases he : env.idIndexEnabled
      · rw [if_pos he] at hrr
        obtain ⟨v, hv, hveq⟩ := List.mem_map.mp hrr
        apply hids
        rw [← hre, ← hveq]
        exact hv
      · rw [if_neg he] at hrr
        simp at hrr
    · exact hpre (hre ▸ mem_durable_of_idRow st rr hrr)
  · intro hmem
    unfold verify durableStrings at hmem
    simp only [List.map_append, List.mem_append, List.mem_map, List.map_cons,
      List.mem_singleton, List.mem_cons] at hmem
    rcases hmem with
      (((⟨a, ha, hae⟩ | hver | ⟨a, ha, -⟩) | (⟨a, ha, hae⟩ | hemp | ⟨a, ha, -⟩)) |
        ⟨rr, hrr, hre⟩) | ⟨rr, hrr, hre⟩
    · exact hpre (hae ▸ mem_durable_of_action st a ha)
    · exact hact.2.1 hver
    · simp at ha
    · exact hpre (hae ▸ mem_durable_of_details st a ha)
    · exact hact.2.2 hemp
    · simp at ha
    · exact hpre (hre ▸ mem_durable_of_fpRow st rr hrr)
    · exact hpre (hre ▸ mem_durable_of_idRow st rr hrr)
  · intro row hrow heq
    have hmem : row ∈ st.idIndex := (List.mem_filter.mp hrow).1
    exact hpre (heq ▸ mem_durable_of_idRow st row hmem)

/-- Witness for C8 at the concrete environment, fresh store and secret. -/
theorem spec_c8_witness :
    "secret" ∉ durableStrings stW1 ∧
    "secret" ∉ durableStrings (verify envW stW 11).2 := by
  have hh : ∀ s, envW.hashStr s ≠ "secret" := by
    intro s heq
    have hdata := congrArg String.data heq
    obtain ⟨l⟩ := s
    simp [hashStrW, envW] at hdata
  have h := spec_c8_raw_secret_never_durable envW stW "secret" docW1 saltW ivW 7 11 "P1"
    (by decide) hh (by decide) (by decide) (fun e => by cases e <;> decide)
  exact ⟨h.1 stW1 1 (by decide), h.2.2.1⟩

/-! ## Route-handler lemmas -/

/-- Every hex digit character produced from a value below 16 is a
lowercase hex character. -/
theorem hexDigit_isHex : ∀ n < 16, isHexChar (hexDigit n) = true := by
  decide

/-- Node-style hex encoding yields two characters per byte. -/
theorem bytesToHex_length (bs : Bytes) : (bytesToHex bs).length = 2 * bs.length := by
  unfold bytesToHex
  simp only [String.length]
  induction bs with
  | nil => rfl
  | cons b rest ih =>
    simp only [List.map_cons, List.flatten_cons, List.length_append, List.length_cons,
      List.length_nil] at ih ⊢
    omega

/-- Every character of a Node-style hex encoding is a lowercase hex
character. -/
theorem bytesToHex_chars (bs : Bytes) : ∀ c ∈ (bytesToHex bs).data, isHexChar c = true := by
  unfold bytesToHex
  induction bs with
  | nil => intro c hc; simp at hc
  | cons b rest ih =>
    intro c hc
    simp only [List.map_cons, List.flatten_cons] at hc
    rcases List.mem_append.mp hc with hc1 | hc2
    · rcases List.mem_cons.mp hc1 with rfl | hc1'
      · exact hexDigit_isHex _ (Nat.mod_lt _ (by omega))
      · rcases List.mem_cons.mp hc1' with rfl | hc1''
        · exact hexDigit_isHex _ (Nat.mod_lt _ (by omega))
        · simp at hc1''
    · exact ih c hc2

/-- C9: the `create-m2m-token` route returns 401 with no token when
unauthenticated, 403 with no token for an authenticated non-admin, and
for an admin a success body with `success = true`, a token of the form
`m2m_` followed by 64 lowercase hex characters, `validityDays = 365`,
and an expiry 365 days after the request. -/
theorem spec_c9_m2m_token_admin_gate (role : String → Option String) (rand : Bytes)
    (today : Nat) (uid : String) (hrand : rand.length = 32) :
    ((createM2MToken none role rand today).status = 401 ∧
      (createM2MToken none role rand today).token = none ∧
      (createM2MToken none role rand today).success = false) ∧
    (role uid ≠ some "admin" →
      (createM2MToken (some uid) role rand today).status = 403 ∧
      (createM2MToken (some uid) role rand today).token = none ∧
      (createM2MToken (some uid) role rand today).success = false) ∧
    (role uid = some "admin" →
      createM2MToken (some uid) role rand today =
        ⟨200, true, some ("m2m_" ++ bytesToHex rand), some (today + 365), some 365, none⟩ ∧
      (bytesToHex rand).length = 64 ∧
      ∀ c ∈ (bytesToHex rand).data, isHexChar c = true) := by
  refine ⟨⟨rfl, rfl, rfl⟩, fun hne => ?_, fun hadm => ?_⟩
  · unfold createM2MToken
    dsimp only
    rw [if_pos hne]
    exact ⟨rfl, rfl, rfl⟩
  · refine ⟨?_, ?_, bytesToHex_chars rand⟩
    · unfold createM2MToken
      dsimp only
      rw [if_neg (by simp [hadm])]
    · rw [bytesToHex_length, hrand]

/-- Witness for C9 at a concrete role table and random draw. -/
theorem spec_c9_witness :
    ((createM2MToken none (fun _ => some "admin") (List.replicate 32 171) 20)).status = 401 ∧
    ((createM2MToken (some "u1") (fun u => if u = "u1" then some "gov" else some "admin")
      (List.replicate 32 171) 20)).status = 403 ∧
    (createM2MToken (some "u2") (fun u => if u = "u1" then some "gov" else some "admin")
      (List.replicate 32 171) 20) =
      ⟨200, true, some ("m2m_" ++ bytesToHex (List.replicate 32 171)), some (20 + 365),
        some 365, none⟩ ∧
    (bytesToHex (List.replicate 32 171)).length = 64 := by
  have h1 := spec_c9_m2m_token_admin_gate (fun _ => some "admin")
    (List.replicate 32 171) 20 "u1" (by decide)
  have h2 := spec_c9_m2m_token_admin_gate
    (fun u => if u = "u1" then some "gov" else some "admin")
    (List.replicate 32 171) 20 "u1" (by decide)
  have h3 := spec_c9_m2m_token_admin_gate
    (fun u => if u = "u1" then some "gov" else some "admin")
    (List.replicate 32 171) 20 "u2" (by decide)
  exact ⟨h1.1.1, (h2.2.1 (by decide)).1, (h3.2.2 (by decide)).1, (h3.2.2 (by decide)).2.1⟩

/-- C10: the create-user route creates a user only for an authenticated
admin requester with JS-truthy email, password and role and the role
either `gov` or `admin`; a missing field or any other role yields 400
with no user created, and on success the returned user's role is the
requested one. -/
theorem spec_c10_create_user_gate (role : String → Option String)
    (mkUser : CreateParams → ClerkUser) (body : CreateUserBody) (uid : String)
    (hmeta : ∀ p, (mkUser p).metaRole = some p.metaRole) :
    ((createUserRoute none role mkUser body).status = 401 ∧
      (createUserRoute none role mkUser body).created = none) ∧
    (role uid ≠ some "admin" →
      (createUserRoute (some uid) role mkUser body).status = 403 ∧
      (createUserRoute (some uid) role mkUser body).created = none) ∧
    (role uid = some "admin" →
      ¬(jsTruthy body.email = true ∧ jsTruthy body.password = true ∧
          jsTruthy body.role = true) →
      (createUserRoute (some uid) role mkUser body).status = 400 ∧
      (createUserRoute (some uid) role mkUser body).created = none) ∧
    (role uid = some "admin" →
      jsTruthy body.email = true → jsTruthy body.password = true →
      jsTruthy body.role = true →
      body.role.getD "" ≠ "gov" → body.role.getD "" ≠ "admin" →
      (createUserRoute (some uid) role mkUser body).status = 400 ∧
      (createUserRoute (some uid) role mkUser body).created = none) ∧
    (role uid = some "admin" →
      jsTruthy body.email = true → jsTruthy body.password = true →
      jsTruthy body.role = true →
      (body.role.getD "" = "gov" ∨ body.role.getD "" = "admin") →
      (createUserRoute (some uid) role mkUser body).status = 200 ∧
      (createUserRoute (some uid) role mkUser body).success = true ∧
      (createUserRoute (some uid) role mkUser body).created =
        some ⟨body.email.getD "", body.password.getD "", body.role.getD "",
          body.firstName, body.lastName⟩ ∧
      (createUserRoute (some uid) role mkUser body).userRole = body.role) := by
  refine ⟨⟨rfl, rfl⟩, fun hne => ?_, fun hadm hmiss => ?_, fun hadm he hp hr hg ha => ?_,
    fun hadm he hp hr hrole => ?_⟩
  · unfold createUserRoute
    dsimp only
    rw [if_pos hne]
    exact ⟨rfl, rfl⟩
  · unfold createUserRoute
    dsimp only
    rw [if_neg (by simp [hadm])]
    rw [if_pos (by
      cases he : jsTruthy body.email <;> cases hpw : jsTruthy body.password <;>
        cases hro : jsTruthy body.role <;> simp_all)]
    exact ⟨rfl, rfl⟩
  · unfold createUserRoute
    dsimp only
    rw [if_neg (by simp [hadm]), if_neg (by simp [he, hp, hr]), if_pos]
    · exact ⟨rfl, rfl⟩
    · simp [hg, ha]
  · unfold createUserRoute
    dsimp only
    rw [if_neg (by simp [hadm]), if_neg (by simp [he, hp, hr]), if_neg (by simp [hrole])]
    refine ⟨rfl, rfl, rfl, ?_⟩
    dsimp only
    rw [hmeta]
    cases hb : body.role with
    | none => rw [hb] at hr; simp [jsTruthy] at hr
    | some s => simp

/-- Witness for C10 at a concrete Clerk model and request body. -/
theorem spec_c10_witness :
    (createUserRoute (some "a1") (fun u => if u = "a1" then some "admin" else none)
      (fun p => ⟨"new", some p.email, some p.metaRole, p.firstName, p.lastName⟩)
      ⟨some "e@x", some "pw", some "gov", none, none⟩).status = 200 ∧
    (createUserRoute (some "a1") (fun u => if u = "a1" then some "admin" else none)
      (fun p => ⟨"new", some p.email, some p.metaRole, p.firstName, p.lastName⟩)
      ⟨some "e@x", some "pw", some "gov", none, none⟩).userRole = some "gov" ∧
    (createUserRoute (some "a1") (fun u => if u = "a1" then some "admin" else none)
      (fun p => ⟨"new", some p.email, some p.metaRole, p.firstName, p.lastName⟩)
      ⟨some "e@x", some "pw", some "boss", none, none⟩).status = 400 ∧
    (createUserRoute (some "a1") (fun u => if u = "a1" then some "admin" else none)
      (fun p => ⟨"new", some p.email, some p.metaRole, p.firstName, p.lastName⟩)
      ⟨some "e@x", some "pw", some "boss", none, none⟩).created = none := by
  have h1 := spec_c10_create_user_gate (fun u => if u = "a1" then some "admin" else none)
    (fun p => ⟨"new", some p.email, some p.metaRole, p.firstName, p.lastName⟩)
    ⟨some "e@x", some "pw", some "gov", none, none⟩ "a1" (fun p => rfl)
  have h2 := spec_c10_create_user_gate (fun u => if u = "a1" then some "admin" else none)
    (fun p => ⟨"new", some p.email, some p.metaRole, p.firstName, p.lastName⟩)
    ⟨some "e@x", some "pw", some "boss", none, none⟩ "a1" (fun p => rfl)
  have hs := h1.2.2.2.2 (by decide) (by decide) (by decide) (by decide) (Or.inl (by decide))
  have hb := h2.2.2.2.1 (by decide) (by decide) (by decide) (by decide) (by decide) (by decide)
  exact ⟨hs.1, hs.2.2.2, hb.1, hb.2⟩

end IdLedger
